import Mathlib

/-!
Shallow embedding of the wildfire-detection streaming pipeline
(`stream_server.py`): the per-frame control loop of `generate_frames`,
the bounded detection-history buffer, the confidence-weighted temporal
smoothing, the overlay box clamping of `draw_detections`, and the
multipart chunk emission.  Floating-point quantities are modelled over ℚ.
-/

namespace StreamServer

/-- One raw detection produced by the decoder: normalized box coordinates,
confidence, class id (a row `(x_min, y_min, x_max, y_max, conf, class_id)`
of the detections tensor). -/
structure RawDetection where
  xMin : ℚ
  yMin : ℚ
  xMax : ℚ
  yMax : ℚ
  conf : ℚ
  classId : ℤ
deriving DecidableEq, Repr

/-- The detection history: a list of per-frame filtered detection sets,
front = oldest (the module-level `detection_history` list; `pop(0)`
removes the front, `append` pushes at the back). -/
abbrev History := List (List RawDetection)

/-- Lines 137–139: `mask = confidences >= args.conf_threshold;
filtered_dets = dets_tensor[mask]` — keep detections whose confidence is ≥ the threshold (inclusive). -/
def filterDets (τ : ℚ) (dets : List RawDetection) : List RawDetection :=
  dets.filter (fun d => τ ≤ d.conf)

/-- Lines 152–153: `best_idx = np.argmax(hist_frame[:, 4])`,
`hist_frame[best_idx]` — the first detection of maximal confidence (`np.argmax` returns the first
index attaining the maximum), `none` on an empty frame entry. -/
def bestDet : List RawDetection → Option RawDetection
  | [] => none
  | d :: ds => some (ds.foldl (fun b x => if b.conf < x.conf then x else b) d)

/-- The `smoothed_dets` list: for each history entry with `len > 0`, its
single highest-confidence detection (that frame's representative). -/
def representatives (h : History) : List RawDetection :=
  h.filterMap bestDet

/-- The value `weights.sum()` before normalization: the sum of the representatives'
confidences. -/
def weightSum (reps : List RawDetection) : ℚ :=
  (reps.map (fun d => d.conf)).sum

/-- The numpy mean `np.average(values, weights=w)` = `Σ w_i·v_i / Σ w_i`, applied with the
normalized weights `w_i = c_i / s`. -/
def npAverage (values weights : List ℚ) : ℚ :=
  ((values.zip weights).map (fun p => p.1 * p.2)).sum / weights.sum

/-- The normalized weights, `weights = weights / weights.sum()`. -/
def normWeights (reps : List RawDetection) : List ℚ :=
  reps.map (fun d => d.conf / weightSum reps)

/-- The weighted-average body of lines 156–168: normalize the
representatives' confidences into weights, average box coordinates and
confidence, and emit a single class-0 detection when the averaged
confidence is still ≥ `τ`.

When every representative confidence is 0 the normalization divides by
zero: in numpy this produces NaN weights (no exception is raised), the
averaged confidence is NaN, and `nan >= τ` is `False`, so nothing is
emitted.  That behaviour is encoded here by the `weightSum reps = 0`
branch returning `none`. -/
def smoothedAvg (τ : ℚ) (reps : List RawDetection) : Option RawDetection :=
  if weightSum reps = 0 then none
  else
    let w := normWeights reps
    let avgConf := npAverage (reps.map (fun d => d.conf)) w
    if τ ≤ avgConf then
      some ⟨npAverage (reps.map (fun d => d.xMin)) w,
            npAverage (reps.map (fun d => d.yMin)) w,
            npAverage (reps.map (fun d => d.xMax)) w,
            npAverage (reps.map (fun d => d.yMax)) w,
            avgConf, 0⟩
    else
      none

/-- The smoothing computation of lines 149–174: collect the per-entry
representatives and, when the list is non-empty (`if smoothed_dets:`),
run the weighted average on it. -/
def smoothedOutput (τ : ℚ) (h : History) : Option RawDetection :=
  match representatives h with
  | [] => none
  | d :: ds => smoothedAvg τ (d :: ds)

/-- Lines 143–146: `detection_history.append(filtered_dets)`, then
`pop(0)` when the length now exceeds `W` (strictly). -/
def updateHist (W : ℕ) (filtered : List RawDetection) (hist : History) : History :=
  let h1 := hist ++ [filtered]
  if W < h1.length then h1.tail else h1

/-- One frame of the smoothing logic (lines 134–194 of `generate_frames`):
given the window size `W` (`args.smooth_frames`), the threshold `τ`
(`args.conf_threshold`), this frame's decoded detections and the current
history, return the updated history together with the list of detections
passed to `draw_detections` for this frame (`[]` when nothing is drawn).

* non-empty filtered set, `W > 1`: append the filtered set, evict the
  front if the length now exceeds `W`; with ≥ 2 entries run the weighted
  average, otherwise draw the raw filtered set;
* non-empty filtered set, `W ≤ 1`: draw the raw filtered set, history
  untouched;
* empty filtered set (or no detections at all): `pop(0)` when the history
  is non-empty, draw nothing. -/
def smoothStep (W : ℕ) (τ : ℚ) (dets : List RawDetection) (hist : History) :
    History × List RawDetection :=
  if filterDets τ dets = [] then
    (hist.tail, [])
  else if 1 < W then
    (updateHist W (filterDets τ dets) hist,
      if 2 ≤ (updateHist W (filterDets τ dets) hist).length then
        (smoothedOutput τ (updateHist W (filterDets τ dets) hist)).elim [] (fun d => [d])
      else
        filterDets τ dets)
  else
    (hist, filterDets τ dets)

/-- The history after running the loop over a sequence of per-frame
decoded detection lists, starting from a given history. -/
def runHistFrom (W : ℕ) (τ : ℚ) (hist : History) (inputs : List (List RawDetection)) :
    History :=
  inputs.foldl (fun h dets => (smoothStep W τ dets h).1) hist

/-- The history after running the loop from the initial empty
`detection_history = []`. -/
def runHist (W : ℕ) (τ : ℚ) (inputs : List (List RawDetection)) : History :=
  runHistFrom W τ [] inputs

/-- A history is reachable when some input sequence produces it from the
initial empty history. -/
def Reachable (W : ℕ) (τ : ℚ) (h : History) : Prop :=
  ∃ inputs, runHist W τ inputs = h

/-! ### Overlay renderer (`draw_detections`) -/

/-- Python `int(...)` on a float: truncation toward zero. -/
def pyInt (q : ℚ) : ℤ :=
  if 0 ≤ q then ⌊q⌋ else ⌈q⌉

/-- Lines 73–76: `max(0, min(bound - 1, v))` clamps a pixel coordinate
into `0 .. bound-1`. -/
def clampPix (bound v : ℤ) : ℤ :=
  max 0 (min (bound - 1) v)

/-- The four clamped corner pixel coordinates of one drawn rectangle. -/
structure PixelBox where
  x1 : ℤ
  y1 : ℤ
  x2 : ℤ
  y2 : ℤ
deriving DecidableEq, Repr

/-- Lines 68–76 of `draw_detections`: scale normalized coordinates by the
frame width/height, truncate, and clamp to the frame bounds. -/
def boxPixels (frameW frameH : ℤ) (d : RawDetection) : PixelBox :=
  { x1 := clampPix frameW (pyInt (d.xMin * frameW))
    y1 := clampPix frameH (pyInt (d.yMin * frameH))
    x2 := clampPix frameW (pyInt (d.xMax * frameW))
    y2 := clampPix frameH (pyInt (d.yMax * frameH)) }

/-- The detections actually drawn by `draw_detections`: the loop skips a
detection exactly when `conf < conf_threshold` (strictly below). -/
def drawnDetections (τ : ℚ) (dets : List RawDetection) : List RawDetection :=
  dets.filter (fun d => ¬ d.conf < τ)

/-! ### Frame generation / chunk emission -/

/-- One frame pulled from the source, as the chunk-emission logic sees it:
its decoded detections and whether `cv2.imencode` succeeds on the
annotated frame (`ret` of line 221). -/
structure FrameInput where
  dets : List RawDetection
  encodeOk : Bool
deriving DecidableEq, Repr

/-- One multipart chunk: `--frame\r\nContent-Type: image/jpeg\r\n\r\n...`,
identified here by the detections drawn on the encoded frame. -/
structure Chunk where
  drawn : List RawDetection
deriving DecidableEq, Repr

/-- The chunk sequence `generate_frames` yields for a source that delivers
exactly the given frames and then reports end-of-stream (`ret` false
breaks the loop).  An encode failure skips the `yield` for that frame and
continues (`continue` at line 223); every successful encode yields exactly
one chunk.  No trailing error chunk is produced. -/
def generateFrames (W : ℕ) (τ : ℚ) : History → List FrameInput → List Chunk
  | _, [] => []
  | hist, f :: fs =>
    let step := smoothStep W τ f.dets hist
    if f.encodeOk then
      ⟨step.2⟩ :: generateFrames W τ step.1 fs
    else
      generateFrames W τ step.1 fs

/-! ### Spec-side formula -/

/-- The specification's weighting formula `Σ (c_i / Σ c_j) · v_i` over the
representatives, stated from the spec's words (for comparison with the
`np.average`-based computation of the source). -/
def specWeighted (reps : List RawDetection) (f : RawDetection → ℚ) : ℚ :=
  (reps.map (fun d => d.conf / weightSum reps * f d)).sum

/-- The invariant kept by every per-frame update: every stored history
entry is a non-empty detection set whose confidences are all ≥ `τ`. -/
def GoodHistory (τ : ℚ) (h : History) : Prop :=
  ∀ e ∈ h, e ≠ [] ∧ ∀ d ∈ e, τ ≤ d.conf

/-! ### Concrete sample data (used by witnesses and counterexamples) -/

/-- A high-confidence sample detection. -/
def dWA : RawDetection := ⟨1/10, 2/10, 3/10, 4/10, 9/10, 0⟩

/-- A lower-confidence sample detection. -/
def dWB : RawDetection := ⟨2/10, 3/10, 4/10, 5/10, 1/2, 0⟩

/-- A two-entry sample history. -/
def histW2 : History := [[dWA], [dWB]]

/-- A three-entry sample history. -/
def histW3 : History := [[dWA], [dWA], [dWA]]

/-- The weighted average of `dWA` and `dWB`
(`s = 7/5`, weights `9/14` and `5/14`). -/
def dAvgAB : RawDetection := ⟨19/140, 33/140, 47/140, 61/140, 53/70, 0⟩

/-- A detection with confidence exactly 0. -/
def dZero : RawDetection := ⟨0, 0, 1, 1, 0, 0⟩

/-- A history whose representatives all have confidence 0. -/
def histZero : History := [[dZero], [dZero]]

/-- A detection whose confidence sits exactly on the threshold `2/5`. -/
def dThresh : RawDetection := ⟨0, 0, 1, 1, 2/5, 0⟩

/-- A detection whose normalized coordinates lie outside `[0, 1]`
(`x_min = -1/10`, `x_max = 6/5`). -/
def dOver : RawDetection := ⟨-1/10, 0, 6/5, 1, 9/10, 0⟩

/-! ## Lemmas -/

theorem sum_map_div (l : List ℚ) (s : ℚ) :
    (l.map (fun x => x / s)).sum = l.sum / s := by
  induction l with
  | nil => simp
  | cons x xs ih => simp [ih, add_div]

theorem normWeights_sum (reps : List RawDetection) (hs : weightSum reps ≠ 0) :
    (normWeights reps).sum = 1 := by
  unfold normWeights
  rw [show (reps.map (fun d => d.conf / weightSum reps))
        = ((reps.map (fun d => d.conf)).map (fun x => x / weightSum reps)) by
      simp [List.map_map, Function.comp]]
  rw [sum_map_div]
  exact div_self hs

theorem npAverage_normWeights (reps : List RawDetection) (f : RawDetection → ℚ)
    (hs : weightSum reps ≠ 0) :
    npAverage (reps.map f) (normWeights reps) = specWeighted reps f := by
  unfold npAverage specWeighted
  rw [normWeights_sum reps hs, div_one]
  unfold normWeights
  rw [List.zip_map']
  simp only [List.map_map]
  congr 1
  apply List.map_congr_left
  intro d _
  simp only [Function.comp_apply]
  exact mul_comm _ _

theorem updateHist_length_le (W : ℕ) (f : List RawDetection) (hist : History)
    (hlen : hist.length ≤ W) : (updateHist W f hist).length ≤ W := by
  simp only [updateHist]
  split
  · rw [List.length_tail]
    simp only [List.length_append, List.length_singleton]
    omega
  · rename_i hge
    simp only [List.length_append, List.length_singleton] at hge ⊢
    omega

theorem smoothStep_fst_length_le (W : ℕ) (τ : ℚ) (dets : List RawDetection)
    (hist : History) (hlen : hist.length ≤ W) :
    ((smoothStep W τ dets hist).1).length ≤ W := by
  unfold smoothStep
  split
  · simp only []
    rw [List.length_tail]
    omega
  · split
    · exact updateHist_length_le W _ hist hlen
    · exact hlen

theorem runHistFrom_length_le (W : ℕ) (τ : ℚ) (hist : History)
    (inputs : List (List RawDetection)) (hlen : hist.length ≤ W) :
    (runHistFrom W τ hist inputs).length ≤ W := by
  induction inputs generalizing hist with
  | nil => exact hlen
  | cons d ds ih =>
    exact ih (smoothStep W τ d hist).1 (smoothStep_fst_length_le W τ d hist hlen)

theorem smoothStep_of_empty (W : ℕ) (τ : ℚ) (dets : List RawDetection) (hist : History)
    (hf : filterDets τ dets = []) : smoothStep W τ dets hist = (hist.tail, []) := by
  unfold smoothStep
  rw [if_pos hf]

theorem runHistFrom_all_empty (W : ℕ) (τ : ℚ) (hist : History)
    (inputs : List (List RawDetection))
    (hall : ∀ ds ∈ inputs, filterDets τ ds = [])
    (hlen : hist.length ≤ inputs.length) :
    runHistFrom W τ hist inputs = [] := by
  induction inputs generalizing hist with
  | nil =>
    cases hist with
    | nil => rfl
    | cons e es => simp at hlen
  | cons d ds ih =>
    show runHistFrom W τ (smoothStep W τ d hist).1 ds = []
    rw [smoothStep_of_empty W τ d hist (hall d (by simp))]
    refine ih hist.tail (fun x hx => hall x (by simp [hx])) ?_
    rw [List.length_tail]
    simp only [List.length_cons] at hlen
    omega

/-! ## Claims -/

/-- **C2**: for every window size `W`, every threshold and every sequence of
per-frame detection inputs, the detection history produced by running the
per-frame update loop from the initial empty history has length at most
`W` (so `len(detection_history) ≤ W` holds after every frame). -/
theorem C2_history_length_bounded (W : ℕ) (τ : ℚ) (inputs : List (List RawDetection)) :
    (runHist W τ inputs).length ≤ W :=
  runHistFrom_length_le W τ [] inputs (by simp)

/-- **C4**: a frame whose filtered detection set is empty evicts exactly the
oldest history entry (the update is `(hist.tail, [])` — nothing appended,
nothing drawn), and from any reachable history, feeding `W + 1` consecutive
frames with empty filtered sets leaves the history empty. -/
theorem C4_empty_frame_decay (W : ℕ) (τ : ℚ) (dets : List RawDetection) (h : History)
    (_hW : 1 < W) (hreach : Reachable W τ h) (hf : filterDets τ dets = [])
    (inputs : List (List RawDetection)) (hlen : inputs.length = W + 1)
    (hall : ∀ ds ∈ inputs, filterDets τ ds = []) :
    smoothStep W τ dets h = (h.tail, []) ∧ runHistFrom W τ h inputs = [] := by
  refine ⟨smoothStep_of_empty W τ dets h hf, ?_⟩
  obtain ⟨ins, rfl⟩ := hreach
  refine runHistFrom_all_empty W τ _ inputs hall ?_
  have := runHistFrom_length_le W τ [] ins (by simp)
  rw [hlen]
  exact le_trans this (by omega)

/-- **C6**: when every representative in the history has confidence exactly
0, the weight normalization would divide by zero; the smoothing step emits
no stabilized detection and raises no error (the computation is total and
returns `none`). -/
theorem C6_all_zero_confidences (τ : ℚ) (h : History)
    (hz : ∀ r ∈ representatives h, r.conf = 0) :
    smoothedOutput τ h = none := by
  unfold smoothedOutput
  split
  · rfl
  · rename_i d ds heq
    have hsum : weightSum (d :: ds) = 0 := by
      apply List.sum_eq_zero
      intro x hx
      simp only [List.mem_map] at hx
      obtain ⟨r, hr, rfl⟩ := hx
      exact hz r (by rw [heq]; exact hr)
    unfold smoothedAvg
    rw [if_pos hsum]

/-- **C7**: the confidence filter is inclusive — a detection whose
confidence equals `τ_conf` exactly is retained by the controller's
`conf >= τ` filter and is drawn by `draw_detections` (whose loop skips
only detections with `conf < τ`). -/
theorem C7_inclusive_threshold (τ : ℚ) (dets : List RawDetection) (d : RawDetection)
    (hmem : d ∈ dets) (hconf : d.conf = τ) :
    d ∈ filterDets τ dets ∧ d ∈ drawnDetections τ dets := by
  constructor
  · simp [filterDets, List.mem_filter, hmem, hconf]
  · simp [drawnDetections, List.mem_filter, hmem, hconf]

theorem clampPix_bounds (bound v : ℤ) (hb : 1 ≤ bound) :
    0 ≤ clampPix bound v ∧ clampPix bound v ≤ bound - 1 := by
  unfold clampPix
  omega

/-- **C9**: for every detection, including ones whose normalized
coordinates lie outside `[0, 1]`, the pixel coordinates of the drawn
rectangle corners are clamped into `0 .. frame_width - 1` horizontally and
`0 .. frame_height - 1` vertically. -/
theorem C9_box_clamped (frameW frameH : ℤ) (d : RawDetection)
    (hw : 1 ≤ frameW) (hh : 1 ≤ frameH) :
    0 ≤ (boxPixels frameW frameH d).x1 ∧ (boxPixels frameW frameH d).x1 ≤ frameW - 1 ∧
    0 ≤ (boxPixels frameW frameH d).y1 ∧ (boxPixels frameW frameH d).y1 ≤ frameH - 1 ∧
    0 ≤ (boxPixels frameW frameH d).x2 ∧ (boxPixels frameW frameH d).x2 ≤ frameW - 1 ∧
    0 ≤ (boxPixels frameW frameH d).y2 ∧ (boxPixels frameW frameH d).y2 ≤ frameH - 1 := by
  simp only [boxPixels]
  exact ⟨(clampPix_bounds _ _ hw).1, (clampPix_bounds _ _ hw).2,
    (clampPix_bounds _ _ hh).1, (clampPix_bounds _ _ hh).2,
    (clampPix_bounds _ _ hw).1, (clampPix_bounds _ _ hw).2,
    (clampPix_bounds _ _ hh).1, (clampPix_bounds _ _ hh).2⟩

theorem specWeighted_singleton (r : RawDetection) (f : RawDetection → ℚ)
    (hc : r.conf ≠ 0) : specWeighted [r] f = f r := by
  simp [specWeighted, weightSum, div_self hc]

theorem smoothedAvg_components (τ : ℚ) (reps : List RawDetection) (d : RawDetection)
    (hs : weightSum reps ≠ 0) (hd : smoothedAvg τ reps = some d) :
    d = ⟨specWeighted reps (fun r => r.xMin), specWeighted reps (fun r => r.yMin),
         specWeighted reps (fun r => r.xMax), specWeighted reps (fun r => r.yMax),
         specWeighted reps (fun r => r.conf), 0⟩ := by
  have hA : ∀ f : RawDetection → ℚ,
      npAverage (reps.map f) (normWeights reps) = specWeighted reps f :=
    fun f => npAverage_normWeights reps f hs
  simp only [smoothedAvg, if_neg hs, hA] at hd
  split at hd
  · cases hd
    rfl
  · exact absurd hd (by simp)

theorem smoothedOutput_some (τ : ℚ) (h : History) (d : RawDetection)
    (hd : smoothedOutput τ h = some d) : d.classId = 0 ∧ τ ≤ d.conf := by
  unfold smoothedOutput at hd
  split at hd
  · exact absurd hd (by simp)
  · simp only [smoothedAvg] at hd
    split at hd
    · exact absurd hd (by simp)
    · split at hd
      · rename_i hτ
        cases hd
        exact ⟨rfl, hτ⟩
      · exact absurd hd (by simp)

theorem smoothedOutput_eq_avg (τ : ℚ) (h : History)
    (hne : representatives h ≠ []) :
    smoothedOutput τ h = smoothedAvg τ (representatives h) := by
  unfold smoothedOutput
  split
  · rename_i heq
    exact absurd heq hne
  · rename_i x xs heq
    rw [heq]

/-- **C1**: whenever the smoothing step emits a stabilized detection (the
weight sum being nonzero), its box equals the spec formula
`Σ (c_i/Σc_j)·b_i` coordinate-wise and its confidence equals
`Σ (c_i/Σc_j)·c_i`; and for a single representative the formula reduces to
that representative's box and confidence unchanged. -/
theorem C1_weighted_average (τ : ℚ) (h : History) (d : RawDetection)
    (hs : weightSum (representatives h) ≠ 0)
    (hd : smoothedOutput τ h = some d) :
    (d.xMin = specWeighted (representatives h) (fun r => r.xMin) ∧
     d.yMin = specWeighted (representatives h) (fun r => r.yMin) ∧
     d.xMax = specWeighted (representatives h) (fun r => r.xMax) ∧
     d.yMax = specWeighted (representatives h) (fun r => r.yMax) ∧
     d.conf = specWeighted (representatives h) (fun r => r.conf)) ∧
    (∀ r, representatives h = [r] →
      d.xMin = r.xMin ∧ d.yMin = r.yMin ∧ d.xMax = r.xMax ∧ d.yMax = r.yMax ∧
      d.conf = r.conf) := by
  have hne : representatives h ≠ [] := by
    intro hnil
    rw [hnil] at hs
    exact hs rfl
  rw [smoothedOutput_eq_avg τ h hne] at hd
  have hcomp := smoothedAvg_components τ _ d hs hd
  constructor
  · rw [hcomp]
    exact ⟨rfl, rfl, rfl, rfl, rfl⟩
  · intro r hr
    have hc : r.conf ≠ 0 := by
      rw [hr] at hs
      simpa [weightSum] using hs
    rw [hcomp, hr]
    simp [specWeighted_singleton r _ hc]

theorem smoothStep_snd_of_ge2 (W : ℕ) (τ : ℚ) (dets : List RawDetection) (hist : History)
    (hW : 1 < W) (hne : filterDets τ dets ≠ [])
    (hlen : 2 ≤ (updateHist W (filterDets τ dets) hist).length) :
    smoothStep W τ dets hist =
      (updateHist W (filterDets τ dets) hist,
       (smoothedOutput τ (updateHist W (filterDets τ dets) hist)).elim [] (fun d => [d])) := by
  unfold smoothStep
  rw [if_neg hne, if_pos hW, if_pos hlen]

theorem smoothStep_fst_of_nonempty (W : ℕ) (τ : ℚ) (dets : List RawDetection)
    (hist : History) (hW : 1 < W) (hne : filterDets τ dets ≠ []) :
    (smoothStep W τ dets hist).1 = updateHist W (filterDets τ dets) hist := by
  unfold smoothStep
  rw [if_neg hne, if_pos hW]

/-- **C3** is false as stated: it asserts the emission rule for *every*
frame for which the post-update history holds ≥ 2 entries, "including
frames whose own filtered detection set is empty"; but on a frame with an
empty filtered set the code only pops the history and draws nothing, even
when the remaining ≥ 2 entries would average to a confidence ≥ `τ`.
Concretely: `W = 3`, `τ = 2/5`, an empty frame against a reachable
three-entry history — after the update two high-confidence entries remain
and their average is `9/10 ≥ 2/5`, yet the output is empty. -/
theorem C3_counterexample :
    ¬ (∀ (W : ℕ) (τ : ℚ) (dets : List RawDetection) (hist : History),
        1 < W → 2 ≤ ((smoothStep W τ dets hist).1).length →
        (smoothStep W τ dets hist).2 =
          (smoothedOutput τ ((smoothStep W τ dets hist).1)).elim [] (fun d => [d])) := by
  intro hcl
  have hstep : smoothStep 3 (2/5) [] histW3 = ([[dWA], [dWA]], []) := by
    norm_num [smoothStep, filterDets, histW3]
  have h2 := hcl 3 (2/5) [] histW3 (by norm_num) (by rw [hstep]; norm_num)
  rw [hstep] at h2
  have hout : smoothedOutput (2/5) [[dWA], [dWA]] = some dWA := by
    norm_num [smoothedOutput, smoothedAvg, representatives, bestDet, weightSum,
      normWeights, npAverage, dWA, List.filterMap]
  simp only [hout] at h2
  exact absurd h2 (by simp)

/-- **C3** (amended): for every frame with `W > 1` *whose filtered
detection set is non-empty*, if after the history update the history holds
≥ 2 entries, the engine emits exactly one stabilized detection — the
weighted average of the per-entry highest-confidence representatives, with
class id 0 and confidence ≥ `τ` — when that average clears the threshold,
and nothing otherwise; frames with an empty filtered set always emit
nothing. -/
theorem C3_smoothing_emission (W : ℕ) (τ : ℚ) (dets : List RawDetection) (hist : History)
    (hW : 1 < W) (hne : filterDets τ dets ≠ [])
    (hlen : 2 ≤ ((smoothStep W τ dets hist).1).length) :
    (smoothStep W τ dets hist).2 =
      (smoothedOutput τ ((smoothStep W τ dets hist).1)).elim [] (fun d => [d]) ∧
    (∀ d, smoothedOutput τ ((smoothStep W τ dets hist).1) = some d →
      d.classId = 0 ∧ τ ≤ d.conf) ∧
    (∀ ds : List RawDetection, filterDets τ ds = [] →
      (smoothStep W τ ds hist).2 = []) := by
  rw [smoothStep_fst_of_nonempty W τ dets hist hW hne] at hlen ⊢
  refine ⟨?_, fun d hd => smoothedOutput_some τ _ d hd, fun ds hds => ?_⟩
  · rw [smoothStep_snd_of_ge2 W τ dets hist hW hne hlen]
  · rw [smoothStep_of_empty W τ ds hist hds]

/-- **C5** is false as stated: for `W ≤ 1` with a non-empty filtered set
the code passes the *entire* filtered set to the renderer, not the single
highest-confidence entry.  Concretely: `W = 1`, filtered set
`[dWB, dWA]` with confidences `1/2` and `9/10` — the output is both
detections, while the claim requires only `dWA`. -/
theorem C5_counterexample :
    ¬ (∀ (W : ℕ) (τ : ℚ) (dets : List RawDetection) (hist : History),
        W ≤ 1 → filterDets τ dets ≠ [] →
        (smoothStep W τ dets hist).2 =
          (bestDet (filterDets τ dets)).elim [] (fun d => [d])) := by
  intro hcl
  have hfil : filterDets (2/5) [dWB, dWA] = [dWB, dWA] := by
    norm_num [filterDets, List.filter, dWA, dWB]
  have h2 := hcl 1 (2/5) [dWB, dWA] [] (by norm_num) (by rw [hfil]; simp)
  rw [hfil] at h2
  have hlhs : (smoothStep 1 (2/5) [dWB, dWA] []).2 = [dWB, dWA] := by
    unfold smoothStep
    rw [if_neg (by rw [hfil]; simp), if_neg (by norm_num), hfil]
  have hbest : bestDet [dWB, dWA] = some dWA := by
    norm_num [bestDet, dWA, dWB]
  rw [hlhs, hbest] at h2
  simp [dWA, dWB] at h2

/-- **C5** (amended): for every window size `W ≤ 1`, starting from the
initial empty history the detection history stays empty after every frame
(so no history is ever maintained or averaged), and the per-frame output
is the raw filtered set itself — all of it — or nothing when the filtered
set is empty. -/
theorem C5_no_smoothing (W : ℕ) (τ : ℚ) (hW : W ≤ 1)
    (inputs : List (List RawDetection)) (dets : List RawDetection) :
    runHist W τ inputs = [] ∧ (smoothStep W τ dets []).2 = filterDets τ dets := by
  constructor
  · show runHistFrom W τ [] inputs = []
    induction inputs with
    | nil => rfl
    | cons d ds ih =>
      show runHistFrom W τ (smoothStep W τ d []).1 ds = []
      have hfst : (smoothStep W τ d []).1 = [] := by
        unfold smoothStep
        split
        · rfl
        · rw [if_neg (by omega)]
      rw [hfst]
      exact ih
  · unfold smoothStep
    split
    · rename_i hf
      rw [hf]
    · rw [if_neg (by omega)]

theorem generateFrames_length (W : ℕ) (τ : ℚ) (hist : History)
    (frames : List FrameInput) :
    (generateFrames W τ hist frames).length
      = (frames.filter (fun f => f.encodeOk)).length := by
  induction frames generalizing hist with
  | nil => rfl
  | cons f fs ih =>
    simp only [generateFrames]
    by_cases hok : f.encodeOk <;>
      simp [hok, List.filter_cons, ih]

theorem length_filter_encodeOk (frames : List FrameInput) :
    (frames.filter (fun f => f.encodeOk)).length
      + (frames.filter (fun f => !f.encodeOk)).length = frames.length := by
  induction frames with
  | nil => rfl
  | cons f fs ih =>
    by_cases hok : f.encodeOk <;>
      simp only [List.filter_cons, hok, Bool.not_true, Bool.not_false, if_pos, if_neg,
        List.length_cons] <;>
      simp <;> omega

/-- **C8**: for a frame source yielding exactly the given frames and then
end-of-stream, the generator produces exactly one chunk per frame whose
encode succeeds — `N` minus the number of encode failures, hence at most
`N` — and then terminates with no further (error) chunk. -/
theorem C8_chunk_count (W : ℕ) (τ : ℚ) (hist : History) (frames : List FrameInput) :
    (generateFrames W τ hist frames).length
        = frames.length - (frames.filter (fun f => !f.encodeOk)).length ∧
    (generateFrames W τ hist frames).length ≤ frames.length := by
  have hlen := generateFrames_length W τ hist frames
  have hsplit := length_filter_encodeOk frames
  omega

theorem filterDets_conf_ge (τ : ℚ) (dets : List RawDetection) :
    ∀ d ∈ filterDets τ dets, τ ≤ d.conf := by
  intro d hd
  simp only [filterDets, List.mem_filter, decide_eq_true_eq] at hd
  exact hd.2

theorem goodHistory_tail (τ : ℚ) (h : History) (hg : GoodHistory τ h) :
    GoodHistory τ h.tail :=
  fun e he => hg e (List.mem_of_mem_tail he)

theorem goodHistory_update (W : ℕ) (τ : ℚ) (f : List RawDetection) (h : History)
    (hg : GoodHistory τ h) (hf1 : f ≠ []) (hf2 : ∀ d ∈ f, τ ≤ d.conf) :
    GoodHistory τ (updateHist W f h) := by
  have happ : GoodHistory τ (h ++ [f]) := by
    intro e he
    rcases List.mem_append.1 he with h1 | h1
    · exact hg e h1
    · simp only [List.mem_singleton] at h1
      subst h1
      exact ⟨hf1, hf2⟩
  simp only [updateHist]
  split
  · exact goodHistory_tail τ _ happ
  · exact happ

theorem smoothStep_good (W : ℕ) (τ : ℚ) (dets : List RawDetection) (h : History)
    (hg : GoodHistory τ h) : GoodHistory τ (smoothStep W τ dets h).1 := by
  unfold smoothStep
  split
  · exact goodHistory_tail τ h hg
  · rename_i hne
    split
    · exact goodHistory_update W τ _ h hg hne (filterDets_conf_ge τ dets)
    · exact hg

theorem runHistFrom_good (W : ℕ) (τ : ℚ) (hist : History)
    (inputs : List (List RawDetection)) (hg : GoodHistory τ hist) :
    GoodHistory τ (runHistFrom W τ hist inputs) := by
  induction inputs generalizing hist with
  | nil => exact hg
  | cons d ds ih => exact ih _ (smoothStep_good W τ d hist hg)

theorem foldl_best_mem (d : RawDetection) (ds : List RawDetection) :
    ds.foldl (fun b x => if b.conf < x.conf then x else b) d ∈ d :: ds := by
  induction ds generalizing d with
  | nil => simp
  | cons x xs ih =>
    simp only [List.foldl_cons]
    rcases List.mem_cons.1 (ih (if d.conf < x.conf then x else d)) with h1 | h1
    · rw [h1]
      split
      · simp
      · simp
    · simp [h1]

theorem bestDet_mem (e : List RawDetection) (r : RawDetection)
    (hr : bestDet e = some r) : r ∈ e := by
  cases e with
  | nil => simp [bestDet] at hr
  | cons d ds =>
    simp only [bestDet, Option.some.injEq] at hr
    rw [← hr]
    exact foldl_best_mem d ds

theorem representatives_conf_ge (τ : ℚ) (h : History) (hg : GoodHistory τ h) :
    ∀ r ∈ representatives h, τ ≤ r.conf := by
  intro r hr
  simp only [representatives, List.mem_filterMap] at hr
  obtain ⟨e, he, hbest⟩ := hr
  exact (hg e he).2 r (bestDet_mem e r hbest)

theorem representatives_ne_nil (τ : ℚ) (h : History) (hg : GoodHistory τ h)
    (hne : h ≠ []) : representatives h ≠ [] := by
  cases h with
  | nil => exact absurd rfl hne
  | cons e es =>
    have he : e ≠ [] := (hg e (by simp)).1
    cases e with
    | nil => exact absurd rfl he
    | cons d ds => simp [representatives, bestDet]

theorem weightSum_pos (τ : ℚ) (reps : List RawDetection) (hτ : 0 < τ)
    (hge : ∀ r ∈ reps, τ ≤ r.conf) (hne : reps ≠ []) : 0 < weightSum reps := by
  cases reps with
  | nil => exact absurd rfl hne
  | cons r rs =>
    have h1 : 0 < r.conf := lt_of_lt_of_le hτ (hge r (by simp))
    have h2 : 0 ≤ (rs.map (fun d => d.conf)).sum := by
      apply List.sum_nonneg
      intro x hx
      simp only [List.mem_map] at hx
      obtain ⟨d, hd, rfl⟩ := hx
      exact le_of_lt (lt_of_lt_of_le hτ (hge d (by simp [hd])))
    simp only [weightSum, List.map_cons, List.sum_cons]
    linarith

/-- **C10**: every entry of every reachable detection history is a
non-empty detection set all of whose confidences are ≥ `τ_conf` (only
non-empty filtered sets are ever appended); consequently, when
`τ_conf > 0`, every averaging step over a non-empty reachable history has
a strictly positive weight sum. -/
theorem C10_history_invariant (W : ℕ) (τ : ℚ) (h : History)
    (hreach : Reachable W τ h) :
    GoodHistory τ h ∧ (0 < τ → h ≠ [] → 0 < weightSum (representatives h)) := by
  obtain ⟨ins, rfl⟩ := hreach
  have hg : GoodHistory τ (runHist W τ ins) :=
    runHistFrom_good W τ [] ins (by intro e he; simp at he)
  exact ⟨hg, fun hτ hne =>
    weightSum_pos τ _ hτ (representatives_conf_ge τ _ hg)
      (representatives_ne_nil τ _ hg hne)⟩

/-! ## Witnesses -/

theorem reachable_single : Reachable 2 (2/5) [[dWA]] :=
  ⟨[[dWA]], by
    norm_num [runHist, runHistFrom, List.foldl, smoothStep, updateHist, filterDets,
      List.filter, dWA]⟩

/-- Witness for C1 at the spec's own scenario (confidences `9/10`, `1/2`):
the emitted confidence equals the spec formula. -/
theorem C1_witness :
    dAvgAB.conf = specWeighted (representatives histW2) (fun r => r.conf) :=
  ((C1_weighted_average (2/5) histW2 dAvgAB
      (by norm_num [representatives, bestDet, weightSum, histW2, dWA, dWB, List.filterMap])
      (by norm_num [smoothedOutput, smoothedAvg, representatives, bestDet, weightSum,
        normWeights, npAverage, histW2, dWA, dWB, dAvgAB, List.filterMap])).1).2.2.2.2

/-- Witness for the amended C3: a non-empty frame reaching a two-entry
history emits according to the weighted-average rule. -/
theorem C3_witness :
    (smoothStep 2 (2/5) [dWB] [[dWA]]).2 =
      (smoothedOutput (2/5) ((smoothStep 2 (2/5) [dWB] [[dWA]]).1)).elim []
        (fun d => [d]) :=
  (C3_smoothing_emission 2 (2/5) [dWB] [[dWA]] (by norm_num)
    (by norm_num [filterDets, List.filter, dWB])
    (by norm_num [smoothStep, updateHist, filterDets, List.filter, dWB])).1

/-- Witness for C4: an empty frame pops the single-entry reachable
history, and three consecutive empty frames empty it. -/
theorem C4_witness :
    smoothStep 2 (2/5) [] [[dWA]] = ([[dWA]].tail, []) ∧
    runHistFrom 2 (2/5) [[dWA]] [[], [], []] = [] :=
  C4_empty_frame_decay 2 (2/5) [] [[dWA]] (by norm_num) reachable_single rfl
    [[], [], []] rfl
    (by intro ds hds; simp at hds; subst hds; rfl)

/-- Witness for the amended C5: with `W = 1` the history stays empty and
the output is the whole filtered set. -/
theorem C5_witness :
    runHist 1 (2/5) [[dWA], []] = [] ∧
    (smoothStep 1 (2/5) [dWB, dWA] []).2 = filterDets (2/5) [dWB, dWA] :=
  C5_no_smoothing 1 (2/5) (by norm_num) [[dWA], []] [dWB, dWA]

/-- Witness for C6: a history of two zero-confidence entries smooths to
`none`. -/
theorem C6_witness : smoothedOutput (2/5) histZero = none :=
  C6_all_zero_confidences (2/5) histZero (by
    intro r hr
    simp [representatives, bestDet, histZero] at hr
    subst hr
    rfl)

/-- Witness for C7: a detection with confidence exactly `2/5` passes the
filter and is drawn at threshold `2/5`. -/
theorem C7_witness :
    dThresh ∈ filterDets (2/5) [dThresh] ∧
    dThresh ∈ drawnDetections (2/5) [dThresh] :=
  C7_inclusive_threshold (2/5) [dThresh] dThresh (by simp) rfl

/-- Witness for C9: a detection with `x_min = -1/10` and `x_max = 6/5`
stays clamped inside a 640×480 frame. -/
theorem C9_witness :
    0 ≤ (boxPixels 640 480 dOver).x1 ∧ (boxPixels 640 480 dOver).x1 ≤ 640 - 1 ∧
    0 ≤ (boxPixels 640 480 dOver).y1 ∧ (boxPixels 640 480 dOver).y1 ≤ 480 - 1 ∧
    0 ≤ (boxPixels 640 480 dOver).x2 ∧ (boxPixels 640 480 dOver).x2 ≤ 640 - 1 ∧
    0 ≤ (boxPixels 640 480 dOver).y2 ∧ (boxPixels 640 480 dOver).y2 ≤ 480 - 1 :=
  C9_box_clamped 640 480 dOver (by norm_num) (by norm_num)

/-- Witness for C10: the reachable one-entry history is well-formed and
its weight sum is positive. -/
theorem C10_witness :
    GoodHistory (2/5) [[dWA]] ∧ 0 < weightSum (representatives [[dWA]]) := by
  have h := C10_history_invariant 2 (2/5) [[dWA]] reachable_single
  exact ⟨h.1, h.2 (by norm_num) (by simp)⟩

end StreamServer
